import Mathlib

/-!
Verification of the lexless audio core against its specification.

The development shallowly embeds the two core modules:

* `src/lexless/audio_processor.py` — `AudioProcessor.cut_segments` (segment
  excision with fades), `AudioProcessor.normalize_audio` (peak normalization);
* `src/lexless/speaker_diarization.py` — `SpeakerDiarizer.identify_interviewer`,
  `SpeakerDiarizer.get_speaker_segments` and the timestamp projection of
  `get_speaker_timestamps` (the external diarization model call is abstracted
  as the given segment list).

Python floats are idealized as exact rationals (ℚ); numpy arrays as `List ℚ`,
boolean masks as `List Bool`.  Python slice index resolution (including
negative indices) and numpy in-place broadcasting (which raises `ValueError`
on shape mismatch, modelled as `none`) are embedded faithfully.
-/

/- Batteries marks rational arithmetic `irreducible`, which blocks `decide`
   on concrete inputs; restore reducibility locally for this development. -/
attribute [local semireducible] Rat.add Rat.mul Rat.sub Rat.inv

/-- Python `int(q)` on a real value: truncation toward zero.
`audio_processor.py:57-58` uses `int(start_time * self.sample_rate)`. -/
def ratTrunc (q : ℚ) : ℤ := if q < 0 then ⌈q⌉ else ⌊q⌋

/-- Resolution of one Python slice endpoint against a sequence of length `L`:
a negative index counts from the end, and both directions clamp into `[0, L]`. -/
def pyIdx (L : ℕ) (i : ℤ) : ℕ :=
  (if i < 0 then ((L : ℤ) + i).toNat else i.toNat).min L

/-- Model of `np.linspace(s, e, num)` with `endpoint=True` (numpy default), in exact
arithmetic: `num` values from `s` to `e` inclusive; `num = 0` gives an empty
array, `num = 1` gives `[s]`.  Used at `audio_processor.py:68,75`. -/
def linspace (s e : ℚ) (num : ℕ) : List ℚ :=
  if num = 0 then []
  else if num = 1 then [s]
  else (List.range num).map (fun (i : ℕ) => s + (e - s) * (i : ℚ) / ((num : ℚ) - 1))

/-- numpy in-place `audio[a:b] *= fade` with Python slice resolution and
numpy broadcasting: the write succeeds iff `fade` has exactly the slice's
length or length 1 (scalar broadcast); otherwise numpy raises `ValueError`
(modelled as `none`).  Models `audio_processor.py:69,76`. -/
def sliceMul (audio : List ℚ) (a b : ℤ) (fade : List ℚ) : Option (List ℚ) :=
  let lo := pyIdx audio.length a
  let hi := pyIdx audio.length b
  if fade.length = hi - lo ∨ fade.length = 1 then
    some (List.ofFn (fun j : Fin audio.length =>
      if lo ≤ (j : ℕ) ∧ (j : ℕ) < hi then
        audio.get j * (if fade.length = 1 then fade.getD 0 1 else fade.getD ((j : ℕ) - lo) 1)
      else audio.get j))
  else none

/-- In-place `mask[lo:hi] = False` on a boolean mask (`audio_processor.py:79`);
scalar assignment to a slice never fails. -/
def setRange (mask : List Bool) (lo hi : ℕ) : List Bool :=
  List.ofFn (fun j : Fin mask.length =>
    if lo ≤ (j : ℕ) ∧ (j : ℕ) < hi then false else mask.get j)

/-- Computation `start_sample = max(0, int(start_time * sample_rate))`
(`audio_processor.py:57,61`): clamped below only. -/
def ssOf (sr : ℤ) (p : ℚ × ℚ) : ℤ := max 0 (ratTrunc (p.1 * (sr : ℚ)))

/-- Computation `end_sample = min(len(audio), int(end_time * sample_rate))`
(`audio_processor.py:58,62`): clamped above only. -/
def esOf (sr : ℤ) (L : ℕ) (p : ℚ × ℚ) : ℤ := min (L : ℤ) (ratTrunc (p.2 * (sr : ℚ)))

/-- The fade-out write before a cut (`audio_processor.py:65-69`). -/
def fadeOutStep (sr : ℤ) (smooth : ℚ) (audio : List ℚ) (ss : ℤ) : Option (List ℚ) :=
  if 0 < smooth ∧ 0 < ss then
    let fs := ratTrunc (smooth * (sr : ℚ))
    let fstart := max 0 (ss - fs)
    let n := (ss - fstart).toNat
    sliceMul audio fstart ss ((linspace 1 0 n).take n)
  else some audio

/-- The fade-in write after a cut (`audio_processor.py:72-76`); `L` is
`len(audio)`, unchanged by the in-place fade writes. -/
def fadeInStep (sr : ℤ) (smooth : ℚ) (audio : List ℚ) (es : ℤ) (L : ℕ) : Option (List ℚ) :=
  if 0 < smooth ∧ es < (L : ℤ) then
    let fs := ratTrunc (smooth * (sr : ℚ))
    let fend := min (L : ℤ) (es + fs)
    let n := (fend - es).toNat
    sliceMul audio es fend ((linspace 0 1 n).take n)
  else some audio

/-- One iteration of the loop of `cut_segments` (`audio_processor.py:56-79`)
over a single `(start_time, end_time)` pair: convert the timestamps to sample
indices, clamp `start` below by 0 and `end` above by `len(audio)`, apply the
fade-out and fade-in tapers in place, and mark the range in the retain-mask.
The state is `(audio, samples_to_keep)`. -/
def applyRange (sr : ℤ) (smooth : ℚ) (st : List ℚ × List Bool) (p : ℚ × ℚ) :
    Option (List ℚ × List Bool) :=
  match fadeOutStep sr smooth st.1 (ssOf sr p) with
  | none => none
  | some audio1 =>
    match fadeInStep sr smooth audio1 (esOf sr st.1.length p) st.1.length with
    | none => none
    | some audio2 =>
      some (audio2,
        setRange st.2 (pyIdx st.2.length (ssOf sr p)) (pyIdx st.2.length (esOf sr st.1.length p)))

/-- Python's ordering on `(start, end)` tuples: lexicographic. -/
def pairLe (p q : ℚ × ℚ) : Prop := p.1 < q.1 ∨ (p.1 = q.1 ∧ p.2 ≤ q.2)

instance : DecidableRel pairLe := fun p q => by
  unfold pairLe; infer_instance

/-- Model of `sorted(timestamps_to_remove)` (`audio_processor.py:50`): Python sorts
tuples by the lexicographic total order, so any correct sort (here insertion
sort) produces the same list. -/
def pySorted (ts : List (ℚ × ℚ)) : List (ℚ × ℚ) := List.insertionSort pairLe ts

/-- Model of `AudioProcessor.cut_segments` (`audio_processor.py:36-84`), returning both
the final state of the input array (which the function mutates in place
through the fade writes) and the returned filtered copy `audio[samples_to_keep]`.
`none` models a raised `ValueError`. -/
def cutSegmentsState (sr : ℤ) (audio : List ℚ) (ts : List (ℚ × ℚ)) (smooth : ℚ) :
    Option (List ℚ × List ℚ) :=
  match (pySorted ts).foldlM (applyRange sr smooth) (audio, List.replicate audio.length true) with
  | none => none
  | some st => some (st.1, ((st.1.zip st.2).filter (fun q => q.2)).map Prod.fst)

/-- The value returned to the caller by `cut_segments`. -/
def cut_segments (sr : ℤ) (audio : List ℚ) (ts : List (ℚ × ℚ)) (smooth : ℚ) :
    Option (List ℚ) :=
  (cutSegmentsState sr audio ts smooth).map Prod.snd

/-- A timestamp converted to a sample index and clamped to `[0, L]` — the
spec's notion of a "clamped, index-converted" bound. -/
def clampIdx (sr : ℤ) (L : ℕ) (t : ℚ) : ℤ :=
  min (L : ℤ) (max 0 (ratTrunc (t * (sr : ℚ))))

/-- Number of sample indices of `[0, L)` covered by the union of the clamped,
index-converted deletion ranges. -/
def coveredCount (sr : ℤ) (L : ℕ) (ts : List (ℚ × ℚ)) : ℕ :=
  (List.range L).countP (fun (j : ℕ) =>
    ts.any (fun p => decide (clampIdx sr L p.1 ≤ (j : ℤ) ∧ (j : ℤ) < clampIdx sr L p.2)))

/-- Whether the mask write of the loop iteration for range `p` marks sample
`j` for removal: the slice `samples_to_keep[start_sample:end_sample]` resolved
by Python slice semantics against a mask of length `L`. -/
def coversExec (sr : ℤ) (L : ℕ) (p : ℚ × ℚ) (j : ℕ) : Bool :=
  decide (pyIdx L (ssOf sr p) ≤ j ∧ j < pyIdx L (esOf sr L p))

/-- Model of `np.max(np.abs(audio))` for a nonempty buffer; folding the reduction's
seed 0 is harmless since absolute values are nonnegative. -/
def peakAbs (audio : List ℚ) : ℚ := (audio.map (fun x => |x|)).foldr max 0

/-- Model of `AudioProcessor.normalize_audio` (`audio_processor.py:100-113`).
On an empty buffer `np.max` raises `ValueError` ("zero-size array to reduction
operation"), modelled as `none`; otherwise divide by the peak when it is
positive, else return the input. -/
def normalize_audio (audio : List ℚ) : Option (List ℚ) :=
  if audio.isEmpty then none
  else if 0 < peakAbs audio then some (audio.map (fun x => x / peakAbs audio))
  else some audio

/-- A pyannote `Segment`: the source's `end` field is called `stop` here
(`end` is a Lean keyword). -/
structure Segment where
  start : ℚ
  stop : ℚ
deriving DecidableEq, Repr

/-- Duration of a pyannote segment: `end - start`. -/
def Segment.duration (s : Segment) : ℚ := s.stop - s.start

/-- Distinct elements of a list of labels in first-appearance order, with an
accumulator of labels already seen. -/
def faFrom (seen : List String) : List String → List String
  | [] => []
  | k :: rest => if k ∈ seen then faFrom seen rest else k :: faFrom (k :: seen) rest

/-- Model of `list(set(speaker for _, speaker in segments))` (`speaker_diarization.py:189`).
Python's set iteration order is unspecified; the order is observable only
through `speakers[0]` when there is at most one distinct label, so listing
distinct labels in first-appearance order is a faithful model. -/
def uniqueSpeakers (segments : List (Segment × String)) : List String :=
  faFrom [] (segments.map Prod.snd)

/-- One `speaker_duration[speaker] += segment.duration` step on the dict
(modelled as an association list in insertion order, as Python dicts preserve
insertion order). -/
def updateAdd : List (String × ℚ) → String → ℚ → List (String × ℚ)
  | [], k, d => [(k, d)]
  | (k', v) :: rest, k, d =>
    if k' = k then (k', v + d) :: rest else (k', v) :: updateAdd rest k d

/-- The `speaker_duration` dict built by `speaker_diarization.py:200-204`. -/
def speakerDurations (segments : List (Segment × String)) : List (String × ℚ) :=
  segments.foldl (fun acc p => updateAdd acc p.2 p.1.duration) []

/-- Python `min(items, key=lambda x: x[1])` keeps the current best unless a
later item is strictly smaller, hence returns the first minimal item. -/
def minFrom (best : String × ℚ) : List (String × ℚ) → String × ℚ
  | [] => best
  | q :: rest => minFrom (if q.2 < best.2 then q else best) rest

/-- Model of `min(speaker_duration.items(), key=lambda x: x[1])`; `none` models the
`ValueError` Python's `min` raises on an empty sequence. -/
def pyMin : List (String × ℚ) → Option (String × ℚ)
  | [] => none
  | q :: rest => some (minFrom q rest)

/-- Model of `SpeakerDiarizer.identify_interviewer` (`speaker_diarization.py:173-215`).
`Except.error` models a raised exception (`NotImplementedError` for "manual",
`ValueError` for an unknown method). -/
def identify_interviewer (segments : List (Segment × String)) (method : String) :
    Except String String :=
  match segments with
  | [] => .ok ""
  | p0 :: rest =>
    let speakers := uniqueSpeakers (p0 :: rest)
    if speakers.length ≤ 1 then .ok (speakers.headD "")
    else if method = "first" then .ok p0.2
    else if method = "duration" then
      match pyMin (speakerDurations (p0 :: rest)) with
      | some q => .ok q.1
      | none => .error "min() arg is an empty sequence"
    else if method = "manual" then .error "Manual selection not implemented"
    else .error ("Unknown method: " ++ method)

instance : DecidableEq (Except String String) := fun x y =>
  match x, y with
  | .ok a, .ok b =>
    if h : a = b then .isTrue (congrArg Except.ok h)
    else .isFalse (fun hc => h (Except.ok.inj hc))
  | .error a, .error b =>
    if h : a = b then .isTrue (congrArg Except.error h)
    else .isFalse (fun hc => h (Except.error.inj hc))
  | .ok _, .error _ => .isFalse (fun hc => Except.noConfusion hc)
  | .error _, .ok _ => .isFalse (fun hc => Except.noConfusion hc)

/-- Total speaking time of label `k` over the segment list. -/
def totalDur (segments : List (Segment × String)) (k : String) : ℚ :=
  ((segments.filter (fun p => p.2 = k)).map (fun p => p.1.duration)).sum

/-- Model of `SpeakerDiarizer.get_speaker_segments` (`speaker_diarization.py:160-171`). -/
def get_speaker_segments (segments : List (Segment × String)) (speaker_id : String) :
    List Segment :=
  (segments.filter (fun p => p.2 = speaker_id)).map Prod.fst

/-- The timestamp projection of `get_speaker_timestamps`
(`speaker_diarization.py:242-247`), given the already-computed segment list
and selected speaker: `[(seg.start, seg.end) for seg in interviewer_segments]`. -/
def get_speaker_timestamps (segments : List (Segment × String)) (speaker_id : String) :
    List (ℚ × ℚ) :=
  (get_speaker_segments segments speaker_id).map (fun s => (s.start, s.stop))

/-! ## Basic facts about the embedded operations -/

lemma ratTrunc_nonneg {q : ℚ} (h : 0 ≤ q) : 0 ≤ ratTrunc q := by
  unfold ratTrunc
  rw [if_neg (not_lt.mpr h)]
  exact Int.floor_nonneg.mpr h

lemma ratTrunc_mono {p q : ℚ} (h : p ≤ q) : ratTrunc p ≤ ratTrunc q := by
  unfold ratTrunc
  by_cases hp : p < 0 <;> by_cases hq : q < 0
  · rw [if_pos hp, if_pos hq]
    exact Int.ceil_le_ceil h
  · rw [if_pos hp, if_neg hq]
    calc ⌈p⌉ ≤ 0 := by exact_mod_cast Int.ceil_le.mpr (by exact_mod_cast hp.le)
      _ ≤ ⌊q⌋ := by exact_mod_cast Int.le_floor.mpr (by exact_mod_cast not_lt.mp hq)
  · exact absurd (h.trans_lt hq) hp
  · rw [if_neg hp, if_neg hq]
    exact Int.floor_le_floor h

lemma linspace_length (s e : ℚ) (n : ℕ) : (linspace s e n).length = n := by
  unfold linspace
  by_cases h0 : n = 0
  · simp [h0]
  · by_cases h1 : n = 1
    · simp [h0, h1]
    · simp [h0, h1]

lemma linspace_getD (s e : ℚ) (n : ℕ) (hn : 1 < n) (j : ℕ) (hj : j < n) :
    (linspace s e n).getD j 0 = s + (e - s) * j / ((n : ℚ) - 1) := by
  unfold linspace
  rw [if_neg (by omega), if_neg (by omega)]
  rw [List.getD_eq_getElem?_getD, List.getElem?_map, List.getElem?_range hj]
  rfl

/-! ## C5: fade curves -/

/-- C5:  For every span length `N > 1` the fade-out curve
`np.linspace(1.0, 0.0, N)` starts at exactly 1, ends at exactly 0 and is
non-increasing; the fade-in curve `np.linspace(0.0, 1.0, N)` starts at
exactly 0, ends at exactly 1 and is non-decreasing; `N = 0` produces an
empty curve. -/
theorem fade_curves_are_monotone_ramps (n : ℕ) (hn : 1 < n) :
    (linspace 1 0 n).getD 0 0 = 1 ∧
    (linspace 1 0 n).getD (n - 1) 0 = 0 ∧
    (∀ i j, i ≤ j → j < n → (linspace 1 0 n).getD j 0 ≤ (linspace 1 0 n).getD i 0) ∧
    (linspace 0 1 n).getD 0 0 = 0 ∧
    (linspace 0 1 n).getD (n - 1) 0 = 1 ∧
    (∀ i j, i ≤ j → j < n → (linspace 0 1 n).getD i 0 ≤ (linspace 0 1 n).getD j 0) ∧
    linspace 1 0 0 = [] ∧ linspace 0 1 0 = [] := by
  have hpos : (0 : ℚ) < (n : ℚ) - 1 := by
    have : (1 : ℚ) < (n : ℚ) := by exact_mod_cast hn
    linarith
  refine ⟨?_, ?_, ?_, ?_, ?_, ?_, rfl, rfl⟩
  · rw [linspace_getD 1 0 n hn 0 (by omega)]; simp
  · rw [linspace_getD 1 0 n hn (n - 1) (by omega)]
    have hc : ((n - 1 : ℕ) : ℚ) = (n : ℚ) - 1 := by
      push_cast [Nat.cast_sub (by omega : 1 ≤ n)]; ring
    rw [hc]
    field_simp
  · intro i j hij hj
    rw [linspace_getD 1 0 n hn j hj, linspace_getD 1 0 n hn i (by omega)]
    have hcast : (i : ℚ) ≤ (j : ℚ) := by exact_mod_cast hij
    have : (0 - 1 : ℚ) * j / ((n : ℚ) - 1) ≤ (0 - 1) * i / ((n : ℚ) - 1) := by
      apply div_le_div_of_nonneg_right ?_ hpos.le |>.trans_eq rfl
      nlinarith
    linarith
  · rw [linspace_getD 0 1 n hn 0 (by omega)]; simp
  · rw [linspace_getD 0 1 n hn (n - 1) (by omega)]
    have hc : ((n - 1 : ℕ) : ℚ) = (n : ℚ) - 1 := by
      push_cast [Nat.cast_sub (by omega : 1 ≤ n)]; ring
    rw [hc]
    field_simp
  · intro i j hij hj
    rw [linspace_getD 0 1 n hn j hj, linspace_getD 0 1 n hn i (by omega)]
    have hcast : (i : ℚ) ≤ (j : ℚ) := by exact_mod_cast hij
    have : (1 - 0 : ℚ) * i / ((n : ℚ) - 1) ≤ (1 - 0) * j / ((n : ℚ) - 1) := by
      apply div_le_div_of_nonneg_right ?_ hpos.le |>.trans_eq rfl
      nlinarith
    linarith

/-- Witness for C5 at `N = 5`. -/
theorem fade_curves_are_monotone_ramps_witness :
    (1 < 5) ∧
    ((linspace 1 0 5).getD 0 0 = 1 ∧
     (linspace 1 0 5).getD (5 - 1) 0 = 0 ∧
     (∀ i j, i ≤ j → j < 5 → (linspace 1 0 5).getD j 0 ≤ (linspace 1 0 5).getD i 0) ∧
     (linspace 0 1 5).getD 0 0 = 0 ∧
     (linspace 0 1 5).getD (5 - 1) 0 = 1 ∧
     (∀ i j, i ≤ j → j < 5 → (linspace 0 1 5).getD i 0 ≤ (linspace 0 1 5).getD j 0) ∧
     linspace 1 0 0 = [] ∧ linspace 0 1 0 = []) :=
  ⟨by norm_num, fade_curves_are_monotone_ramps 5 (by norm_num)⟩

/-! ## C6 and C7: peak normalization -/

lemma peakAbs_nil : peakAbs [] = 0 := rfl

lemma peakAbs_cons (a : ℚ) (l : List ℚ) : peakAbs (a :: l) = max |a| (peakAbs l) := rfl

lemma peakAbs_nonneg (l : List ℚ) : 0 ≤ peakAbs l := by
  induction l with
  | nil => exact le_refl 0
  | cons a t ih => rw [peakAbs_cons]; exact le_max_of_le_right ih

lemma peakAbs_map_div (l : List ℚ) (m : ℚ) (hm : 0 < m) :
    peakAbs (l.map (fun x => x / m)) = peakAbs l / m := by
  induction l with
  | nil => simp [peakAbs_nil]
  | cons a t ih =>
    rw [List.map_cons, peakAbs_cons, peakAbs_cons, ih]
    rw [abs_div, abs_of_pos hm, max_div_div_right hm.le]

/-- C6:  For every buffer with non-zero peak absolute amplitude, the
normalizer returns a buffer of the same length whose samples are the input
samples divided by the peak, and the output's peak absolute amplitude is
exactly 1. -/
theorem normalize_audio_scales_to_unit_peak (audio : List ℚ) (h : peakAbs audio ≠ 0) :
    normalize_audio audio = some (audio.map (fun x => x / peakAbs audio)) ∧
    (audio.map (fun x => x / peakAbs audio)).length = audio.length ∧
    peakAbs (audio.map (fun x => x / peakAbs audio)) = 1 := by
  have hpos : 0 < peakAbs audio := lt_of_le_of_ne (peakAbs_nonneg audio) (Ne.symm h)
  have hne : ¬ audio.isEmpty := by
    cases audio with
    | nil => exact absurd peakAbs_nil h
    | cons a t => simp
  refine ⟨?_, List.length_map _ _, ?_⟩
  · unfold normalize_audio
    rw [if_neg hne, if_pos hpos]
  · rw [peakAbs_map_div audio (peakAbs audio) hpos]
    exact div_self h

/-- Witness for C6 on the concrete buffer `[1/2, -2]` (peak 2). -/
theorem normalize_audio_scales_to_unit_peak_witness :
    peakAbs [1/2, -2] ≠ 0 ∧
    (normalize_audio [1/2, -2] = some ([1/2, -2].map (fun x => x / peakAbs [1/2, -2])) ∧
     ([1/2, -2].map (fun x => x / peakAbs [1/2, -2])).length = ([(1:ℚ)/2, -2]).length ∧
     peakAbs ([1/2, -2].map (fun x => x / peakAbs [1/2, -2])) = 1) :=
  ⟨by decide, normalize_audio_scales_to_unit_peak [1/2, -2] (by decide)⟩

/-- C7 counterexample:  The claim states an empty buffer is returned
unchanged with no error; on input `[]` the code raises `ValueError`
(`np.max` of a zero-size array), modelled as `none`. -/
theorem normalize_audio_empty_raises : normalize_audio [] = none := rfl

/-- C7 amended:  For every *non-empty* buffer whose peak absolute
amplitude is 0, the normalizer returns the input unchanged, with no division;
the empty buffer instead raises `ValueError` in `np.max`. -/
theorem normalize_audio_silent_passthrough (audio : List ℚ)
    (hne : audio ≠ []) (h0 : peakAbs audio = 0) :
    normalize_audio audio = some audio := by
  unfold normalize_audio
  rw [if_neg (by simpa using hne), if_neg (by rw [h0]; exact lt_irrefl 0)]

/-- Witness for the amended C7 on the silent buffer `[0, 0]`. -/
theorem normalize_audio_silent_passthrough_witness :
    ([(0:ℚ), 0] ≠ []) ∧ peakAbs [0, 0] = 0 ∧ normalize_audio [0, 0] = some [0, 0] :=
  ⟨by decide, by decide, normalize_audio_silent_passthrough [0, 0] (by decide) (by decide)⟩

/-! ## C9: unknown selection policy -/

/-- C9 counterexample:  The claim says *every* input segment list with an
unknown policy fails with an error naming the policy; but on an empty segment
list the code returns `""` before ever inspecting the method (the
`if not segments` early return at `speaker_diarization.py:185-186`). -/
theorem identify_interviewer_unknown_method_empty_ok :
    identify_interviewer [] "bogus" = .ok "" := by decide

/-- C9 amended:  For every segment list with at least two distinct
speaker-labels, a selection policy outside `{duration, first, manual}` makes
`identify_interviewer` fail immediately with a `ValueError` naming the
unknown policy; with zero segments or a single distinct speaker the policy is
never inspected and no error is raised. -/
theorem identify_interviewer_unknown_method_errors
    (segments : List (Segment × String)) (method : String)
    (h2 : 2 ≤ (uniqueSpeakers segments).length)
    (hf : method ≠ "first") (hd : method ≠ "duration") (hm : method ≠ "manual") :
    identify_interviewer segments method = .error ("Unknown method: " ++ method) := by
  cases segments with
  | nil => simp [uniqueSpeakers, faFrom] at h2
  | cons p0 rest =>
    simp only [identify_interviewer]
    rw [if_neg (by omega), if_neg hf, if_neg hd, if_neg hm]

/-- Witness for the amended C9: two speakers, method `"x"`. -/
theorem identify_interviewer_unknown_method_errors_witness :
    2 ≤ (uniqueSpeakers [(⟨0,1⟩,"A"), (⟨1,2⟩,"B")]).length ∧
    identify_interviewer [(⟨0,1⟩,"A"), (⟨1,2⟩,"B")] "x" = .error ("Unknown method: " ++ "x") :=
  ⟨by decide, identify_interviewer_unknown_method_errors [(⟨0,1⟩,"A"), (⟨1,2⟩,"B")] "x"
    (by decide) (by decide) (by decide) (by decide)⟩

/-! ## C3: "Segment Merger" -/

/-- C3 counterexample:  The code performs no merge: the plan that reaches
the cutting loop is merely `sorted(timestamps_to_remove)`
(`audio_processor.py:50`).  For the overlapping ranges `[3,5)` and `[4,6)`
the plan keeps both ranges (violating `plan[i].end ≤ plan[i+1].start`) and is
not the single merged range `[3, 6)` the claim requires. -/
theorem sorted_plan_is_not_merged :
    pySorted [((3:ℚ),(5:ℚ)), (4,6)] = [(3,5), (4,6)] ∧
    pySorted [((3:ℚ),(5:ℚ)), (4,6)] ≠ [(3,6)] := by decide

lemma countP_congr_mem {α : Type} (l : List α) (f g : α → Bool)
    (h : ∀ x ∈ l, f x = g x) : l.countP f = l.countP g := by
  induction l with
  | nil => rfl
  | cons a t ih =>
    rw [List.countP_cons, List.countP_cons, h a (List.mem_cons_self a t),
      ih (fun x hx => h x (List.mem_cons_of_mem a hx))]

lemma clampIdx_mono {sr : ℤ} (L : ℕ) {t u : ℚ} (hsr : 0 < sr) (h : t ≤ u) :
    clampIdx sr L t ≤ clampIdx sr L u := by
  unfold clampIdx
  have hc : ratTrunc (t * (sr : ℚ)) ≤ ratTrunc (u * (sr : ℚ)) := by
    apply ratTrunc_mono
    apply mul_le_mul_of_nonneg_right h
    exact_mod_cast hsr.le
  omega

lemma clampIdx_max {sr : ℤ} (L : ℕ) (hsr : 0 < sr) (b d : ℚ) :
    clampIdx sr L (max b d) = max (clampIdx sr L b) (clampIdx sr L d) := by
  rcases le_total b d with h | h
  · rw [max_eq_right h, max_eq_right (clampIdx_mono L hsr h)]
  · rw [max_eq_left h, max_eq_left (clampIdx_mono L hsr h)]

/-- C3 amended:  The code does not build a merged plan (it only sorts);
however, for any two overlapping or touching ranges `[a,b)` and `[c,d)` with
`a ≤ c ≤ b`, the set of sample indices covered by the clamped, index-converted
ranges is exactly the set covered by the single merged range `[a, max(b,d))`,
so the cut removes the same samples as if the ranges had been merged. -/
theorem overlapping_ranges_cover_like_merged (sr : ℤ) (L : ℕ) (a b c d : ℚ)
    (rest : List (ℚ × ℚ)) (hsr : 0 < sr) (hac : a ≤ c) (hcb : c ≤ b) :
    coveredCount sr L ((a,b) :: (c,d) :: rest) = coveredCount sr L ((a, max b d) :: rest) := by
  unfold coveredCount
  apply countP_congr_mem
  intro j _
  simp only [List.any_cons]
  rw [← Bool.or_assoc]
  have : (decide (clampIdx sr L a ≤ (j:ℤ) ∧ (j:ℤ) < clampIdx sr L b) ||
      decide (clampIdx sr L c ≤ (j:ℤ) ∧ (j:ℤ) < clampIdx sr L d))
      = decide (clampIdx sr L a ≤ (j:ℤ) ∧ (j:ℤ) < clampIdx sr L (max b d)) := by
    rw [← Bool.decide_or, decide_eq_decide]
    have h1 : clampIdx sr L a ≤ clampIdx sr L c := clampIdx_mono L hsr hac
    have h2 : clampIdx sr L c ≤ clampIdx sr L b := clampIdx_mono L hsr hcb
    rw [clampIdx_max L hsr b d]
    constructor
    · rintro (⟨hl, hr⟩ | ⟨hl, hr⟩) <;> constructor <;> omega
    · rintro ⟨hl, hr⟩
      rcases lt_or_le (j : ℤ) (clampIdx sr L b) with hb | hb
      · exact Or.inl ⟨hl, hb⟩
      · refine Or.inr ⟨by omega, by omega⟩
  rw [this]

/-- Witness for the amended C3: ranges `(3,5)` and `(4,6)` of scenario 2. -/
theorem overlapping_ranges_cover_like_merged_witness :
    (0 : ℤ) < 10 ∧ (3 : ℚ) ≤ 4 ∧ (4 : ℚ) ≤ 5 ∧
    coveredCount 10 100 [(3,5), (4,6)] = coveredCount 10 100 [(3, max 5 6)] :=
  ⟨by decide, by decide, by decide,
    overlapping_ranges_cover_like_merged 10 100 3 5 4 6 [] (by decide) (by decide) (by decide)⟩

/-! ## C4: caller-visible mutation -/

/-- C4 counterexample:  With the default-style fade (0.1 s at 10 Hz), the
fade-in write zeroes the caller's sample at the cut's end index: after
`cut_segments` on an all-ones 10-sample buffer deleting `(0.3, 0.5)`, the
caller's buffer has sample 5 set to 0 — an observable in-place mutation, so
the input does *not* hold the same values it held before the call. -/
theorem cut_fades_mutate_input_buffer :
    (cutSegmentsState 10 (List.replicate 10 1) [(3/10, 1/2)] (1/10)).map Prod.fst
      = some [1,1,1,1,1,0,1,1,1,1] ∧
    [(1:ℚ),1,1,1,1,0,1,1,1,1] ≠ List.replicate 10 (1:ℚ) := by decide

lemma fadeOutStep_zero (sr : ℤ) (audio : List ℚ) (ss : ℤ) :
    fadeOutStep sr 0 audio ss = some audio := by
  unfold fadeOutStep
  rw [if_neg (by simp)]

lemma fadeInStep_zero (sr : ℤ) (audio : List ℚ) (es : ℤ) (L : ℕ) :
    fadeInStep sr 0 audio es L = some audio := by
  unfold fadeInStep
  rw [if_neg (by simp)]

lemma applyRange_zero (sr : ℤ) (audio : List ℚ) (mask : List Bool) (p : ℚ × ℚ) :
    applyRange sr 0 (audio, mask) p =
      some (audio, setRange mask (pyIdx mask.length (ssOf sr p))
        (pyIdx mask.length (esOf sr audio.length p))) := by
  unfold applyRange
  simp only [fadeOutStep_zero, fadeInStep_zero]

lemma foldlM_applyRange_zero (sr : ℤ) :
    ∀ (l : List (ℚ × ℚ)) (audio : List ℚ) (mask : List Bool),
    ∃ m', l.foldlM (applyRange sr 0) (audio, mask) = some (audio, m') := by
  intro l
  induction l with
  | nil => exact fun audio mask => ⟨mask, rfl⟩
  | cons p t ih =>
    intro audio mask
    obtain ⟨m', hm'⟩ := ih audio
      (setRange mask (pyIdx mask.length (ssOf sr p)) (pyIdx mask.length (esOf sr audio.length p)))
    exact ⟨m', by rw [List.foldlM_cons, applyRange_zero]; exact hm'⟩

/-- C4 amended:  The cut operation *does* mutate the caller's buffer in
place whenever a fade write changes a sample (see the counterexample); the
caller's buffer is guaranteed unchanged when `smooth_transition = 0`, in which
case no fade write happens at all. -/
theorem cut_segments_zero_fade_preserves_input (sr : ℤ) (audio : List ℚ)
    (ts : List (ℚ × ℚ)) :
    ∃ out, cutSegmentsState sr audio ts 0 = some (audio, out) := by
  obtain ⟨m', hm'⟩ := foldlM_applyRange_zero sr (pySorted ts) audio
    (List.replicate audio.length true)
  exact ⟨_, by unfold cutSegmentsState; rw [hm']⟩

/-! ## C1 counterexample -/

/-- C1 counterexample:  For the range `(-2, -1)` (start ≤ end, both
outside the buffer) on a 12-sample buffer at 10 samples/s, the clamped
index-converted range covers 0 samples, so the claim predicts output length
`12 − 0 = 12`; but `end_sample = min(12, -10) = -10` is never clamped below,
and the Python slice `mask[0:-10]` marks samples 0..1 for removal, so the code
returns a 10-sample buffer. -/
theorem cut_length_miscounts_negative_range :
    cut_segments 10 (List.replicate 12 1) [(-2, -1)] 0 = some (List.replicate 10 1) ∧
    coveredCount 10 12 [(-2, -1)] = 0 ∧
    (List.replicate 10 (1:ℚ)).length ≠ 12 - coveredCount 10 12 [(-2, -1)] := by decide

/-! ## C1: length conservation -/

lemma pyIdx_of_nonneg {L : ℕ} {i : ℤ} (h0 : 0 ≤ i) (hL : i ≤ (L : ℤ)) :
    pyIdx L i = i.toNat := by
  unfold pyIdx
  rw [if_neg (not_lt.mpr h0)]
  exact Nat.min_eq_left (by omega)

lemma sliceMul_succeeds (audio : List ℚ) (a b : ℤ) (fade : List ℚ)
    (h : fade.length = pyIdx audio.length b - pyIdx audio.length a ∨ fade.length = 1) :
    ∃ out, sliceMul audio a b fade = some out ∧ out.length = audio.length := by
  simp only [sliceMul]
  rw [if_pos h]
  exact ⟨_, rfl, by rw [List.length_ofFn]⟩

lemma fadeOutStep_ok (sr : ℤ) (smooth : ℚ) (audio : List ℚ) (ss : ℤ) (hsr : 0 < sr)
    (h0 : 0 ≤ ss) (hL : ss ≤ (audio.length : ℤ)) :
    ∃ out, fadeOutStep sr smooth audio ss = some out ∧ out.length = audio.length := by
  by_cases hc : 0 < smooth ∧ 0 < ss
  · simp only [fadeOutStep]
    rw [if_pos hc]
    apply sliceMul_succeeds
    left
    have hfs : 0 ≤ ratTrunc (smooth * (sr : ℚ)) := by
      apply ratTrunc_nonneg
      apply mul_nonneg hc.1.le
      exact_mod_cast hsr.le
    rw [List.length_take, linspace_length,
      pyIdx_of_nonneg h0 hL,
      pyIdx_of_nonneg (le_max_left 0 _) (le_trans (by omega) hL)]
    omega
  · exact ⟨audio, by simp only [fadeOutStep]; rw [if_neg hc], rfl⟩

lemma fadeInStep_ok (sr : ℤ) (smooth : ℚ) (audio : List ℚ) (es : ℤ) (L : ℕ) (hsr : 0 < sr)
    (hlen : audio.length = L) (h0 : 0 ≤ es) (hL : es ≤ (L : ℤ)) :
    ∃ out, fadeInStep sr smooth audio es L = some out ∧ out.length = audio.length := by
  by_cases hc : 0 < smooth ∧ es < (L : ℤ)
  · simp only [fadeInStep]
    rw [if_pos hc]
    apply sliceMul_succeeds
    left
    have hfs : 0 ≤ ratTrunc (smooth * (sr : ℚ)) := by
      apply ratTrunc_nonneg
      apply mul_nonneg hc.1.le
      exact_mod_cast hsr.le
    rw [List.length_take, linspace_length, hlen,
      pyIdx_of_nonneg h0 hL,
      pyIdx_of_nonneg (by omega) (min_le_left _ _)]
    omega
  · exact ⟨audio, by simp only [fadeInStep]; rw [if_neg hc], rfl⟩

lemma setRange_length (mask : List Bool) (lo hi : ℕ) :
    (setRange mask lo hi).length = mask.length := by
  simp [setRange]

lemma setRange_getD (mask : List Bool) (lo hi j : ℕ) :
    (setRange mask lo hi).getD j false
      = (mask.getD j false && !(decide (lo ≤ j ∧ j < hi))) := by
  by_cases hj : j < mask.length
  · have hj' : j < (setRange mask lo hi).length := by rw [setRange_length]; exact hj
    rw [List.getD_eq_getElem _ _ hj', List.getD_eq_getElem _ _ hj]
    simp only [setRange, List.getElem_ofFn]
    by_cases hcond : lo ≤ j ∧ j < hi
    · rw [if_pos hcond, decide_eq_true hcond]
      simp
    · rw [if_neg hcond, decide_eq_false hcond]
      simp [List.get_eq_getElem]
  · rw [List.getD_eq_default _ _ (by rw [setRange_length]; omega),
      List.getD_eq_default _ _ (by omega)]
    rfl

lemma applyRange_ok (sr : ℤ) (smooth : ℚ) (audio : List ℚ) (mask : List Bool) (p : ℚ × ℚ)
    (hsr : 0 < sr) (_hmask : mask.length = audio.length)
    (h1 : ratTrunc (p.1 * (sr : ℚ)) ≤ (audio.length : ℤ))
    (h2 : 0 ≤ ratTrunc (p.2 * (sr : ℚ))) :
    ∃ a2, applyRange sr smooth (audio, mask) p
        = some (a2, setRange mask (pyIdx mask.length (ssOf sr p))
            (pyIdx mask.length (esOf sr audio.length p)))
      ∧ a2.length = audio.length := by
  have hss0 : 0 ≤ ssOf sr p := le_max_left _ _
  have hssL : ssOf sr p ≤ (audio.length : ℤ) := by unfold ssOf; omega
  have hes0 : 0 ≤ esOf sr audio.length p := by unfold esOf; omega
  have hesL : esOf sr audio.length p ≤ (audio.length : ℤ) := min_le_left _ _
  obtain ⟨a1, ha1, hl1⟩ := fadeOutStep_ok sr smooth audio (ssOf sr p) hsr hss0 hssL
  obtain ⟨a2, ha2, hl2⟩ :=
    fadeInStep_ok sr smooth a1 (esOf sr audio.length p) audio.length hsr hl1 hes0 hesL
  refine ⟨a2, ?_, hl2.trans hl1⟩
  unfold applyRange
  simp only []
  rw [ha1]
  simp only [ha2]

lemma any_of_perm {α : Type} {l1 l2 : List α} (h : l1.Perm l2) (f : α → Bool) :
    l1.any f = l2.any f := by
  cases hb : l2.any f
  · rw [List.any_eq_false] at hb ⊢
    exact fun x hx => hb x (h.subset hx)
  · rw [List.any_eq_true] at hb ⊢
    obtain ⟨x, hx, hfx⟩ := hb
    exact ⟨x, h.symm.subset hx, hfx⟩

lemma foldlM_applyRange_ok (sr : ℤ) (smooth : ℚ) (hsr : 0 < sr) :
    ∀ (l : List (ℚ × ℚ)) (audio : List ℚ) (mask : List Bool),
      mask.length = audio.length →
      (∀ p ∈ l, ratTrunc (p.1 * (sr : ℚ)) ≤ (audio.length : ℤ) ∧
        0 ≤ ratTrunc (p.2 * (sr : ℚ))) →
      ∃ a' m', l.foldlM (applyRange sr smooth) (audio, mask) = some (a', m') ∧
        a'.length = audio.length ∧ m'.length = mask.length ∧
        ∀ j, m'.getD j false
          = (mask.getD j false && !(l.any (fun p => coversExec sr audio.length p j))) := by
  intro l
  induction l with
  | nil =>
    intro audio mask hm _
    exact ⟨audio, mask, rfl, rfl, rfl, fun j => by simp⟩
  | cons p t ih =>
    intro audio mask hm hall
    obtain ⟨a2, ha2, hl2⟩ := applyRange_ok sr smooth audio mask p hsr hm
      (hall p (List.mem_cons_self p t)).1 (hall p (List.mem_cons_self p t)).2
    obtain ⟨a', m', hfold, hla, hlm, hchar⟩ := ih a2
      (setRange mask (pyIdx mask.length (ssOf sr p)) (pyIdx mask.length (esOf sr audio.length p)))
      (by rw [setRange_length, hm, hl2])
      (fun q hq => by rw [hl2]; exact hall q (List.mem_cons_of_mem p hq))
    refine ⟨a', m', ?_, by rw [hla, hl2], by rw [hlm, setRange_length], ?_⟩
    · rw [List.foldlM_cons, ha2]
      simpa using hfold
    · intro j
      rw [hchar j, setRange_getD, hl2, List.any_cons]
      rw [hm]
      show _ = (mask.getD j false && !(coversExec sr audio.length p j || _))
      unfold coversExec
      cases mask.getD j false <;>
        cases hd : decide (pyIdx audio.length (ssOf sr p) ≤ j ∧
          j < pyIdx audio.length (esOf sr audio.length p)) <;>
        simp [hd]

lemma zip_filter_length :
    ∀ (xs : List ℚ) (bs : List Bool), xs.length = bs.length →
      (((xs.zip bs).filter (fun q => q.2)).map Prod.fst).length = bs.countP id := by
  intro xs
  induction xs with
  | nil =>
    intro bs h
    cases bs with
    | nil => rfl
    | cons b t => simp at h
  | cons x xt ih =>
    intro bs h
    cases bs with
    | nil => simp at h
    | cons b bt =>
      have h' : xt.length = bt.length := by simpa using h
      cases b with
      | false =>
        simpa [List.zip_cons_cons, List.filter_cons, List.countP_cons] using ih bt h'
      | true =>
        simpa [List.zip_cons_cons, List.filter_cons, List.countP_cons] using ih bt h'

lemma countP_add_countP_not {α : Type} (l : List α) (f : α → Bool) :
    l.countP f + l.countP (fun a => !(f a)) = l.length := by
  induction l with
  | nil => rfl
  | cons a t ih =>
    rw [List.countP_cons, List.countP_cons]
    cases hfa : f a <;> simp [hfa] <;> omega

lemma countP_id_getD :
    ∀ (m : List Bool) (f : ℕ → Bool), (∀ j, j < m.length → m.getD j false = f j) →
      m.countP id = (List.range m.length).countP f := by
  intro m
  induction m with
  | nil => intro f _; rfl
  | cons b t ih =>
    intro f h
    have hb : b = f 0 := h 0 (Nat.succ_pos _)
    have ht : ∀ j, j < t.length → t.getD j false = f (j + 1) := by
      intro j hj
      have := h (j + 1) (by simpa using Nat.succ_lt_succ hj)
      simpa using this
    rw [List.countP_cons, List.length_cons, List.range_succ_eq_map,
      List.countP_cons, List.countP_map, ih (fun j => f (j + 1)) ht]
    have : (f ∘ Nat.succ) = fun j => f (j + 1) := rfl
    rw [this, ← hb]
    cases b <;> simp [id]

lemma coversExec_eq_clamp (sr : ℤ) (L : ℕ) (p : ℚ × ℚ) (j : ℕ)
    (h1 : ratTrunc (p.1 * (sr : ℚ)) ≤ (L : ℤ)) (h2 : 0 ≤ ratTrunc (p.2 * (sr : ℚ))) :
    coversExec sr L p j
      = decide (clampIdx sr L p.1 ≤ (j : ℤ) ∧ (j : ℤ) < clampIdx sr L p.2) := by
  unfold coversExec
  rw [@pyIdx_of_nonneg L (ssOf sr p) (by unfold ssOf; omega) (by unfold ssOf; omega),
    @pyIdx_of_nonneg L (esOf sr L p) (by unfold esOf; omega) (by unfold esOf; omega)]
  rw [decide_eq_decide]
  unfold clampIdx ssOf esOf
  omega

lemma any_congr_mem {α : Type} (l : List α) (f g : α → Bool)
    (h : ∀ x ∈ l, f x = g x) : l.any f = l.any g := by
  induction l with
  | nil => rfl
  | cons a t ih =>
    rw [List.any_cons, List.any_cons, h a (List.mem_cons_self a t),
      ih (fun x hx => h x (List.mem_cons_of_mem a hx))]

/-- C1 amended:  For every buffer and deletion list in which every range
has `start ≤ end`, a converted start index at most the buffer length and a
nonnegative converted end index (in particular any ranges lying within the
buffer, or overshooting only at the far end), `cut_segments` completes and the
output length equals the input length minus the number of sample indices
covered by the union of the clamped, index-converted ranges; a plan covering
the whole buffer yields a zero-length output.  (Without those index bounds
the claim fails: see the counterexample.) -/
theorem cut_segments_length_conservation (sr : ℤ) (audio : List ℚ) (ts : List (ℚ × ℚ))
    (smooth : ℚ) (hsr : 0 < sr)
    (hts : ∀ p ∈ ts, p.1 ≤ p.2 ∧ ratTrunc (p.1 * (sr : ℚ)) ≤ (audio.length : ℤ) ∧
      0 ≤ ratTrunc (p.2 * (sr : ℚ))) :
    ∃ out, cut_segments sr audio ts smooth = some out ∧
      out.length = audio.length - coveredCount sr audio.length ts := by
  have hperm : (pySorted ts).Perm ts := List.perm_insertionSort pairLe ts
  have hall : ∀ p ∈ pySorted ts, ratTrunc (p.1 * (sr : ℚ)) ≤ (audio.length : ℤ) ∧
      0 ≤ ratTrunc (p.2 * (sr : ℚ)) :=
    fun p hp => (hts p (hperm.subset hp)).2
  obtain ⟨a', m', hfold, hla, hlm, hchar⟩ := foldlM_applyRange_ok sr smooth hsr
    (pySorted ts) audio (List.replicate audio.length true) (by simp) hall
  have hmlen : m'.length = audio.length := by simpa using hlm
  refine ⟨((a'.zip m').filter (fun q => q.2)).map Prod.fst, ?_, ?_⟩
  · unfold cut_segments cutSegmentsState
    rw [hfold]
    rfl
  · rw [zip_filter_length a' m' (by rw [hla, hmlen])]
    have hrepl : ∀ j, j < m'.length →
        m'.getD j false = !((pySorted ts).any (fun p => coversExec sr audio.length p j)) := by
      intro j hj
      rw [hchar j]
      have hjL : j < audio.length := by rwa [hmlen] at hj
      rw [List.getD_eq_getElem _ _ (by simpa using hjL), List.getElem_replicate]
      exact Bool.true_and _
    rw [countP_id_getD m' _ hrepl, hmlen]
    have hcov : (List.range audio.length).countP
        (fun j => (pySorted ts).any (fun p => coversExec sr audio.length p j))
        = coveredCount sr audio.length ts := by
      unfold coveredCount
      apply countP_congr_mem
      intro j _
      rw [any_of_perm hperm]
      apply any_congr_mem
      intro p hp
      exact coversExec_eq_clamp sr audio.length p j (hts p hp).2.1 (hts p hp).2.2
    have hsum := countP_add_countP_not (List.range audio.length)
      (fun j => (pySorted ts).any (fun p => coversExec sr audio.length p j))
    rw [List.length_range] at hsum
    omega

/-- Witness for the amended C1: a 10-sample all-ones buffer at 10 samples/s,
deleting `(0.3, 0.5)` with no fade, has output length `10 − 2 = 8`. -/
theorem cut_segments_length_conservation_witness :
    ((0 : ℤ) < 10 ∧ ∀ p ∈ [((3:ℚ)/10, (1:ℚ)/2)], p.1 ≤ p.2 ∧
      ratTrunc (p.1 * ((10:ℤ) : ℚ)) ≤ ((List.replicate 10 (1:ℚ)).length : ℤ) ∧
      0 ≤ ratTrunc (p.2 * ((10:ℤ) : ℚ))) ∧
    ∃ out, cut_segments 10 (List.replicate 10 1) [(3/10, 1/2)] 0 = some out ∧
      out.length = (List.replicate 10 (1:ℚ)).length
        - coveredCount 10 (List.replicate 10 (1:ℚ)).length [(3/10, 1/2)] :=
  ⟨⟨by decide, by decide⟩,
    cut_segments_length_conservation 10 (List.replicate 10 1) [(3/10, 1/2)] 0
      (by decide) (by decide)⟩

/-! ## C8 and C10: duration policy of the interviewer selector -/

lemma faFrom_mem : ∀ (l seen : List String) (x : String),
    x ∈ faFrom seen l ↔ (x ∈ l ∧ x ∉ seen) := by
  intro l
  induction l with
  | nil => intro seen x; simp [faFrom]
  | cons k rest ih =>
    intro seen x
    simp only [faFrom]
    by_cases hk : k ∈ seen
    · rw [if_pos hk, ih seen x]
      constructor
      · rintro ⟨hr, hs⟩
        exact ⟨List.mem_cons_of_mem _ hr, hs⟩
      · rintro ⟨hkr, hs⟩
        rcases List.mem_cons.mp hkr with rfl | hr
        · exact absurd hk hs
        · exact ⟨hr, hs⟩
    · rw [if_neg hk]
      constructor
      · intro hx
        rcases List.mem_cons.mp hx with rfl | hx'
        · exact ⟨List.mem_cons_self _ _, hk⟩
        · obtain ⟨hr, hs⟩ := (ih (k :: seen) x).mp hx'
          exact ⟨List.mem_cons_of_mem _ hr,
            fun hxs => hs (List.mem_cons_of_mem _ hxs)⟩
      · rintro ⟨hkr, hs⟩
        by_cases hxk : x = k
        · exact hxk ▸ List.mem_cons_self _ _
        · rcases List.mem_cons.mp hkr with rfl | hr
          · exact absurd rfl hxk
          · exact List.mem_cons_of_mem _ ((ih (k :: seen) x).mpr
              ⟨hr, fun hxs => (List.mem_cons.mp hxs).elim hxk hs⟩)

lemma faFrom_nodup : ∀ (l seen : List String), (faFrom seen l).Nodup := by
  intro l
  induction l with
  | nil => intro seen; exact List.nodup_nil
  | cons k rest ih =>
    intro seen
    simp only [faFrom]
    by_cases hk : k ∈ seen
    · rw [if_pos hk]; exact ih seen
    · rw [if_neg hk]
      refine List.Nodup.cons ?_ (ih (k :: seen))
      intro hmem
      exact ((faFrom_mem rest (k :: seen) k).mp hmem).2 (List.mem_cons_self _ _)

lemma faFrom_seen_congr : ∀ (l s1 s2 : List String), (∀ x, x ∈ s1 ↔ x ∈ s2) →
    faFrom s1 l = faFrom s2 l := by
  intro l
  induction l with
  | nil => intro s1 s2 _; rfl
  | cons k rest ih =>
    intro s1 s2 h
    simp only [faFrom]
    by_cases hk : k ∈ s1
    · rw [if_pos hk, if_pos ((h k).mp hk)]
      exact ih s1 s2 h
    · rw [if_neg hk, if_neg (fun hc => hk ((h k).mpr hc))]
      rw [ih (k :: s1) (k :: s2) (fun x => by
        rw [List.mem_cons, List.mem_cons, h x])]

lemma updateAdd_not_mem : ∀ (acc : List (String × ℚ)) (k : String) (d : ℚ),
    k ∉ acc.map Prod.fst → updateAdd acc k d = acc ++ [(k, d)] := by
  intro acc
  induction acc with
  | nil => intro k d _; rfl
  | cons e t ih =>
    intro k d h
    obtain ⟨k', v⟩ := e
    have hk : k' ≠ k := fun hc => h (by simp [hc])
    simp only [updateAdd]
    rw [if_neg hk, ih k d (fun hc => h (by simp [hc]))]
    rfl

lemma updateAdd_keys_mem : ∀ (acc : List (String × ℚ)) (k : String) (d : ℚ),
    k ∈ acc.map Prod.fst → (updateAdd acc k d).map Prod.fst = acc.map Prod.fst := by
  intro acc
  induction acc with
  | nil => intro k d h; simp at h
  | cons e t ih =>
    intro k d h
    obtain ⟨k', v⟩ := e
    simp only [updateAdd]
    by_cases hk : k' = k
    · rw [if_pos hk]
      rfl
    · rw [if_neg hk, List.map_cons, List.map_cons,
        ih k d (by rcases List.mem_cons.mp h with hc | hc; · exact absurd hc.symm hk
                   · exact hc)]

lemma totalDur_cons (seg : Segment) (k' k : String) (rest : List (Segment × String)) :
    totalDur ((seg, k') :: rest) k
      = (if k' = k then seg.duration else 0) + totalDur rest k := by
  unfold totalDur
  by_cases h : k' = k
  · rw [if_pos h, List.filter_cons_of_pos (by simpa using h), List.map_cons, List.sum_cons]
  · rw [if_neg h, List.filter_cons_of_neg (by simpa using h), zero_add]

lemma map_congr_mem {α β : Type} (l : List α) (f g : α → β)
    (h : ∀ x ∈ l, f x = g x) : l.map f = l.map g := by
  induction l with
  | nil => rfl
  | cons a t ih =>
    rw [List.map_cons, List.map_cons, h a (List.mem_cons_self a t),
      ih (fun x hx => h x (List.mem_cons_of_mem a hx))]

lemma updateAdd_map_add (T : String → ℚ) :
    ∀ (acc : List (String × ℚ)) (k : String) (d : ℚ),
      (acc.map Prod.fst).Nodup → k ∈ acc.map Prod.fst →
      (updateAdd acc k d).map (fun e => (e.1, e.2 + T e.1))
        = acc.map (fun e => (e.1, e.2 + ((if e.1 = k then d else 0) + T e.1))) := by
  intro acc
  induction acc with
  | nil => intro k d _ h; simp at h
  | cons e t ih =>
    intro k d hnd h
    obtain ⟨k', v⟩ := e
    simp only [updateAdd]
    by_cases hk : k' = k
    · rw [if_pos hk]
      subst hk
      rw [List.map_cons, List.map_cons]
      have hknot : k' ∉ t.map Prod.fst := by
        simp only [List.map_cons, List.nodup_cons] at hnd
        exact hnd.1
      congr 1
      · rw [if_pos rfl, add_assoc]
      · apply map_congr_mem
        intro e' he'
        have hne : e'.1 ≠ k' := fun hc => hknot (hc ▸ List.mem_map_of_mem Prod.fst he')
        rw [if_neg hne, zero_add]
    · rw [if_neg hk, List.map_cons, List.map_cons]
      have hmem' : k ∈ t.map Prod.fst := by
        rcases List.mem_cons.mp h with hc | hc
        · exact absurd hc.symm hk
        · exact hc
      have hnd' : (t.map Prod.fst).Nodup := by
        simp only [List.map_cons, List.nodup_cons] at hnd
        exact hnd.2
      rw [if_neg hk, zero_add, ih k d hnd' hmem']

lemma foldl_updateAdd_eq :
    ∀ (segs : List (Segment × String)) (acc : List (String × ℚ)),
      (acc.map Prod.fst).Nodup →
      segs.foldl (fun a p => updateAdd a p.2 p.1.duration) acc
        = acc.map (fun e => (e.1, e.2 + totalDur segs e.1))
          ++ (faFrom (acc.map Prod.fst) (segs.map Prod.snd)).map
              (fun k => (k, totalDur segs k)) := by
  intro segs
  induction segs with
  | nil =>
    intro acc _
    simp only [List.foldl_nil, List.map_nil, faFrom, List.append_nil]
    rw [show (fun (e : String × ℚ) => (e.1, e.2 + totalDur [] e.1)) = fun e => e from
      funext (fun e => by simp [totalDur])]
    rw [List.map_id']
  | cons p rest ih =>
    intro acc hnd
    obtain ⟨seg, kp⟩ := p
    rw [List.foldl_cons]
    simp only [List.map_cons, faFrom]
    by_cases hmem : kp ∈ acc.map Prod.fst
    · rw [if_pos hmem]
      have hkeys := updateAdd_keys_mem acc kp seg.duration hmem
      rw [ih (updateAdd acc kp seg.duration) (by rw [hkeys]; exact hnd), hkeys]
      congr 1
      · rw [updateAdd_map_add (fun k => totalDur rest k) acc kp seg.duration hnd hmem]
        apply map_congr_mem
        intro e _
        rw [totalDur_cons]
        by_cases hek : e.1 = kp
        · rw [if_pos hek, if_pos hek.symm]
        · rw [if_neg hek, if_neg (fun hc => hek hc.symm)]
      · apply map_congr_mem
        intro k hk
        have hknot : k ∉ acc.map Prod.fst := ((faFrom_mem _ _ k).mp hk).2
        rw [totalDur_cons, if_neg (fun hc : kp = k => hknot (hc ▸ hmem)), zero_add]
    · rw [if_neg hmem]
      rw [updateAdd_not_mem acc kp seg.duration hmem]
      have hnd' : ((acc ++ [(kp, seg.duration)]).map Prod.fst).Nodup := by
        rw [List.map_append]
        rw [List.nodup_append]
        exact ⟨hnd, List.nodup_singleton kp, by
          intro x hx hxs
          rcases List.mem_singleton.mp hxs with rfl
          exact hmem hx⟩
      rw [ih (acc ++ [(kp, seg.duration)]) hnd']
      rw [faFrom_seen_congr (rest.map Prod.snd) ((acc ++ [(kp, seg.duration)]).map Prod.fst)
        (kp :: acc.map Prod.fst) (fun x => by simp [or_comm])]
      simp only [List.map_append, List.map_cons, List.map_nil, List.singleton_append,
        List.append_assoc, List.nil_append]
      congr 1
      · apply map_congr_mem
        intro e he
        have hne : kp ≠ e.1 := fun hc =>
          hmem (hc ▸ List.mem_map_of_mem Prod.fst he)
        rw [totalDur_cons, if_neg hne, zero_add]
      · congr 1
        · rw [totalDur_cons, if_pos rfl]
        · apply map_congr_mem
          intro k hk
          have hknot : k ∉ kp :: acc.map Prod.fst := ((faFrom_mem _ _ k).mp hk).2
          have hne : kp ≠ k := fun hc => hknot (hc ▸ List.mem_cons_self _ _)
          rw [totalDur_cons, if_neg hne, zero_add]

lemma minFrom_decomp :
    ∀ (l : List (String × ℚ)) (best : String × ℚ),
      ∃ l₁ l₂, best :: l = l₁ ++ (minFrom best l) :: l₂ ∧
        (∀ q ∈ l₁, (minFrom best l).2 < q.2) ∧
        (∀ q ∈ l₂, (minFrom best l).2 ≤ q.2) := by
  intro l
  induction l with
  | nil =>
    intro best
    exact ⟨[], [], rfl, by simp, by simp⟩
  | cons q rest ih =>
    intro best
    simp only [minFrom]
    by_cases hq : q.2 < best.2
    · rw [if_pos hq]
      obtain ⟨l₁, l₂, heq, hlt, hle⟩ := ih q
      have hmq : (minFrom q rest).2 ≤ q.2 := by
        cases l₁ with
        | nil =>
          rw [List.nil_append] at heq
          exact le_of_eq (congrArg Prod.snd (List.head_eq_of_cons_eq heq)).symm
        | cons a t =>
          rw [List.cons_append] at heq
          have ha : q = a := List.head_eq_of_cons_eq heq
          exact (hlt q (ha ▸ List.mem_cons_self a t)).le
      refine ⟨best :: l₁, l₂, by rw [List.cons_append, ← heq], ?_, hle⟩
      intro r hr
      rcases List.mem_cons.mp hr with rfl | hr'
      · exact lt_of_le_of_lt hmq hq
      · exact hlt r hr'
    · rw [if_neg hq]
      obtain ⟨l₁, l₂, heq, hlt, hle⟩ := ih best
      cases l₁ with
      | nil =>
        rw [List.nil_append] at heq
        have hb : best = minFrom best rest := List.head_eq_of_cons_eq heq
        have hrest : rest = l₂ := List.tail_eq_of_cons_eq heq
        refine ⟨[], q :: rest, by rw [List.nil_append, ← hb], ?_, ?_⟩
        · intro r hr
          simp at hr
        · intro r hr
          rcases List.mem_cons.mp hr with rfl | hr'
          · exact le_of_not_lt (fun hc => hq (lt_of_lt_of_le hc (le_of_eq (congrArg Prod.snd hb).symm)))
          · exact hle r (hrest ▸ hr')
      | cons a t =>
        rw [List.cons_append] at heq
        have ha : best = a := List.head_eq_of_cons_eq heq
        have hrest : rest = t ++ minFrom best rest :: l₂ := List.tail_eq_of_cons_eq heq
        refine ⟨best :: q :: t, l₂, ?_, ?_, hle⟩
        · rw [List.cons_append, List.cons_append, ← hrest]
        · intro r hr
          have hmb : (minFrom best rest).2 < best.2 := hlt a (List.mem_cons_self a t) |>.trans_eq
            (congrArg Prod.snd ha).symm
          rcases List.mem_cons.mp hr with rfl | hr'
          · exact hmb
          · rcases List.mem_cons.mp hr' with rfl | hr''
            · exact lt_of_lt_of_le hmb (le_of_not_lt hq)
            · exact hlt r (List.mem_cons_of_mem a hr'')

lemma indexOf_append_not_mem {α : Type} [DecidableEq α] :
    ∀ (u w : List α) (x : α), x ∉ u → (u ++ w).indexOf x = u.length + w.indexOf x := by
  intro u
  induction u with
  | nil => intro w x _; simp
  | cons a t ih =>
    intro w x hx
    have hxa : x ≠ a := fun hc => hx (hc ▸ List.mem_cons_self a t)
    rw [List.cons_append, List.indexOf_cons_ne _ (fun hc => hxa hc.symm),
      ih w x (fun hc => hx (List.mem_cons_of_mem a hc)), List.length_cons]
    omega

lemma faFrom_indexOf_le :
    ∀ (l seen : List String) (s t : String),
      s ∈ faFrom seen l → t ∈ faFrom seen l →
      (faFrom seen l).indexOf s ≤ (faFrom seen l).indexOf t →
      l.indexOf s ≤ l.indexOf t := by
  intro l
  induction l with
  | nil => intro seen s t hs _ _; simp [faFrom] at hs
  | cons k rest ih =>
    intro seen s t hs ht hle
    simp only [faFrom] at hs ht hle
    by_cases hk : k ∈ seen
    · rw [if_pos hk] at hs ht hle
      have hsk : s ≠ k := fun hc => ((faFrom_mem rest seen s).mp hs).2 (hc ▸ hk)
      have htk : t ≠ k := fun hc => ((faFrom_mem rest seen t).mp ht).2 (hc ▸ hk)
      rw [List.indexOf_cons_ne _ (fun hc => hsk hc.symm),
        List.indexOf_cons_ne _ (fun hc => htk hc.symm)]
      exact Nat.succ_le_succ (ih seen s t hs ht hle)
    · rw [if_neg hk] at hs ht hle
      by_cases hsk : s = k
      · subst hsk
        rw [List.indexOf_cons_self]
        exact Nat.zero_le _
      · have hs' : s ∈ faFrom (k :: seen) rest := by
          rcases List.mem_cons.mp hs with rfl | h
          · exact absurd rfl hsk
          · exact h
        by_cases htk : t = k
        · subst htk
          rw [List.indexOf_cons_self] at hle
          rw [List.indexOf_cons_ne _ (fun hc => hsk hc.symm)] at hle
          omega
        · have ht' : t ∈ faFrom (k :: seen) rest := by
            rcases List.mem_cons.mp ht with rfl | h
            · exact absurd rfl htk
            · exact h
          rw [List.indexOf_cons_ne _ (fun hc => hsk hc.symm),
            List.indexOf_cons_ne _ (fun hc => htk hc.symm)] at hle ⊢
          exact Nat.succ_le_succ (ih (k :: seen) s t hs' ht'
            (Nat.le_of_succ_le_succ hle))

lemma speakerDurations_eq (segments : List (Segment × String)) :
    speakerDurations segments
      = (uniqueSpeakers segments).map (fun k => (k, totalDur segments k)) := by
  unfold speakerDurations uniqueSpeakers
  rw [foldl_updateAdd_eq segments [] List.nodup_nil]
  simp only [List.map_nil, List.nil_append]

lemma duration_selection_spec (segments : List (Segment × String))
    (h2 : 2 ≤ (uniqueSpeakers segments).length) :
    ∃ s, identify_interviewer segments "duration" = .ok s ∧
      s ∈ uniqueSpeakers segments ∧
      (∀ t ∈ uniqueSpeakers segments, totalDur segments s ≤ totalDur segments t) ∧
      (∀ t ∈ uniqueSpeakers segments, totalDur segments t = totalDur segments s →
        (uniqueSpeakers segments).indexOf s ≤ (uniqueSpeakers segments).indexOf t) := by
  obtain _ | ⟨p0, rest⟩ := segments
  · simp [uniqueSpeakers, faFrom] at h2
  cases hks : uniqueSpeakers (p0 :: rest) with
  | nil => rw [hks] at h2; simp at h2
  | cons k0 kt =>
  have hdur : speakerDurations (p0 :: rest)
      = (k0, totalDur (p0 :: rest) k0)
        :: kt.map (fun k => (k, totalDur (p0 :: rest) k)) := by
    rw [speakerDurations_eq, hks, List.map_cons]
  obtain ⟨l₁, l₂, heq, hlt, hle⟩ :=
    minFrom_decomp (kt.map (fun k => (k, totalDur (p0 :: rest) k)))
      (k0, totalDur (p0 :: rest) k0)
  set m := minFrom (k0, totalDur (p0 :: rest) k0)
    (kt.map (fun k => (k, totalDur (p0 :: rest) k))) with hm
  have heq' : (k0 :: kt).map (fun k => (k, totalDur (p0 :: rest) k)) = l₁ ++ m :: l₂ := by
    rw [List.map_cons]
    exact heq
  have hmmem : m ∈ (k0 :: kt).map (fun k => (k, totalDur (p0 :: rest) k)) := by
    rw [heq']
    exact List.mem_append_right _ (List.mem_cons_self _ _)
  obtain ⟨s, hsks, hsm⟩ := List.mem_map.mp hmmem
  have hs2 : m.2 = totalDur (p0 :: rest) s := by rw [← hsm]
  have hok : identify_interviewer (p0 :: rest) "duration" = .ok s := by
    simp only [identify_interviewer]
    rw [if_neg (by rw [hks] at h2; rw [hks]; omega),
      if_neg (by decide : ¬ ("duration" = "first")), if_pos trivial, hdur]
    simp only [pyMin]
    rw [← hm, ← hsm]
  have hmin2 : ∀ e ∈ (k0 :: kt).map (fun k => (k, totalDur (p0 :: rest) k)), m.2 ≤ e.2 := by
    intro e he
    rw [heq'] at he
    rcases List.mem_append.mp he with h1 | h2'
    · exact (hlt e h1).le
    · rcases List.mem_cons.mp h2' with rfl | h3
      · exact le_refl _
      · exact hle e h3
  have hmin : ∀ t ∈ uniqueSpeakers (p0 :: rest),
      totalDur (p0 :: rest) s ≤ totalDur (p0 :: rest) t := by
    intro t ht
    rw [hks] at ht
    have hthis := hmin2 ((fun k => (k, totalDur (p0 :: rest) k)) t)
      (List.mem_map_of_mem _ ht)
    rw [hs2] at hthis
    exact hthis
  have hks_decomp : k0 :: kt = l₁.map Prod.fst ++ s :: l₂.map Prod.fst := by
    calc k0 :: kt
        = ((k0 :: kt).map (fun k => (k, totalDur (p0 :: rest) k))).map Prod.fst := by
          rw [List.map_map,
            show (Prod.fst ∘ fun k => (k, totalDur (p0 :: rest) k)) = fun k : String => k
              from rfl, List.map_id']
      _ = (l₁ ++ m :: l₂).map Prod.fst := by rw [heq']
      _ = l₁.map Prod.fst ++ m.1 :: l₂.map Prod.fst := by
          rw [List.map_append, List.map_cons]
      _ = l₁.map Prod.fst ++ s :: l₂.map Prod.fst := by rw [← hsm]
  have hs_notin : s ∉ l₁.map Prod.fst := by
    intro hc
    obtain ⟨e, hel1, he1⟩ := List.mem_map.mp hc
    have he_in : e ∈ l₁ ++ m :: l₂ := List.mem_append_left _ hel1
    rw [← heq'] at he_in
    obtain ⟨x, _, hxe⟩ := List.mem_map.mp he_in
    have hlt' : m.2 < e.2 := hlt e hel1
    have hxs : x = s := by rw [← hxe] at he1; exact he1
    rw [← hxe, hxs] at hlt'
    exact absurd hlt' (by rw [hs2]; exact lt_irrefl _)
  have htie : ∀ t ∈ uniqueSpeakers (p0 :: rest),
      totalDur (p0 :: rest) t = totalDur (p0 :: rest) s →
      (uniqueSpeakers (p0 :: rest)).indexOf s ≤ (uniqueSpeakers (p0 :: rest)).indexOf t := by
    intro t ht htd
    rw [hks]
    have ht_notin : t ∉ l₁.map Prod.fst := by
      intro hc
      obtain ⟨e, hel1, he1⟩ := List.mem_map.mp hc
      have he_in : e ∈ l₁ ++ m :: l₂ := List.mem_append_left _ hel1
      rw [← heq'] at he_in
      obtain ⟨x, _, hxe⟩ := List.mem_map.mp he_in
      have hlt' : m.2 < e.2 := hlt e hel1
      have hxs : x = t := by rw [← hxe] at he1; exact he1
      rw [← hxe, hxs] at hlt'
      rw [htd, ← hs2] at hlt'
      exact lt_irrefl _ hlt'
    rw [hks_decomp, indexOf_append_not_mem _ _ s hs_notin,
      indexOf_append_not_mem _ _ t ht_notin, List.indexOf_cons_self]
    omega
  refine ⟨s, hok, hsks, ?_, ?_⟩
  · intro t ht
    exact hmin t (by rw [hks]; exact ht)
  · intro t ht htd
    have hres := htie t (by rw [hks]; exact ht) htd
    rw [hks] at hres
    exact hres

/-- C8:  Under the `duration` policy with at least two distinct
speaker-labels, `identify_interviewer` returns a speaker whose summed segment
durations are minimal among all speakers, and the emitted time ranges are
exactly the `(start, end)` pairs of that speaker's segments in original
chronological order. -/
theorem identify_interviewer_duration_minimal (segments : List (Segment × String))
    (h2 : 2 ≤ (uniqueSpeakers segments).length) :
    ∃ s, identify_interviewer segments "duration" = .ok s ∧
      s ∈ segments.map Prod.snd ∧
      (∀ t ∈ segments.map Prod.snd, totalDur segments s ≤ totalDur segments t) ∧
      get_speaker_timestamps segments s
        = (segments.filter (fun p => p.2 = s)).map (fun p => (p.1.start, p.1.stop)) := by
  obtain ⟨s, hok, hmem, hmin, _⟩ := duration_selection_spec segments h2
  have hmem' : s ∈ faFrom [] (segments.map Prod.snd) := hmem
  refine ⟨s, hok, ((faFrom_mem _ _ s).mp hmem').1, ?_, ?_⟩
  · intro t ht
    exact hmin t ((faFrom_mem _ _ t).mpr ⟨ht, by simp⟩)
  · unfold get_speaker_timestamps get_speaker_segments
    rw [List.map_map]
    rfl

/-- Witness for C8 at the spec's concrete scenario 3:
segments `A:[0,10], B:[10,12], A:[12,20]` select speaker `B`
(durations A = 18, B = 2) with emitted ranges `[(10,12)]`. -/
theorem identify_interviewer_duration_minimal_witness :
    (2 ≤ (uniqueSpeakers [(⟨0,10⟩,"A"), (⟨10,12⟩,"B"), (⟨12,20⟩,"A")]).length) ∧
    (∃ s, identify_interviewer [(⟨0,10⟩,"A"), (⟨10,12⟩,"B"), (⟨12,20⟩,"A")] "duration" = .ok s ∧
      s ∈ [(⟨0,10⟩,"A"), (⟨10,12⟩,"B"), ((⟨12,20⟩ : Segment),"A")].map Prod.snd ∧
      (∀ t ∈ [(⟨0,10⟩,"A"), (⟨10,12⟩,"B"), ((⟨12,20⟩ : Segment),"A")].map Prod.snd,
        totalDur [(⟨0,10⟩,"A"), (⟨10,12⟩,"B"), (⟨12,20⟩,"A")] s
          ≤ totalDur [(⟨0,10⟩,"A"), (⟨10,12⟩,"B"), (⟨12,20⟩,"A")] t) ∧
      get_speaker_timestamps [(⟨0,10⟩,"A"), (⟨10,12⟩,"B"), (⟨12,20⟩,"A")] s
        = ([(⟨0,10⟩,"A"), (⟨10,12⟩,"B"), ((⟨12,20⟩ : Segment),"A")].filter
            (fun p => p.2 = s)).map (fun p => (p.1.start, p.1.stop))) :=
  ⟨by decide, identify_interviewer_duration_minimal
    [(⟨0,10⟩,"A"), (⟨10,12⟩,"B"), (⟨12,20⟩,"A")] (by decide)⟩

/-- C10:  Under the `duration` policy with at least two distinct speakers,
ties in minimal total duration are broken deterministically in favour of the
speaker appearing earliest in the input segment list: the durations dict is
accumulated in first-appearance order and Python's `min` keeps the first
minimal entry. -/
theorem identify_interviewer_duration_tiebreak (segments : List (Segment × String))
    (h2 : 2 ≤ (uniqueSpeakers segments).length) :
    ∃ s, identify_interviewer segments "duration" = .ok s ∧
      s ∈ segments.map Prod.snd ∧
      (∀ t ∈ segments.map Prod.snd, totalDur segments s ≤ totalDur segments t) ∧
      (∀ t ∈ segments.map Prod.snd, totalDur segments t = totalDur segments s →
        (segments.map Prod.snd).indexOf s ≤ (segments.map Prod.snd).indexOf t) := by
  obtain ⟨s, hok, hmem, hmin, htie⟩ := duration_selection_spec segments h2
  have hmem' : s ∈ faFrom [] (segments.map Prod.snd) := hmem
  refine ⟨s, hok, ((faFrom_mem _ _ s).mp hmem').1, ?_, ?_⟩
  · intro t ht
    exact hmin t ((faFrom_mem _ _ t).mpr ⟨ht, by simp⟩)
  · intro t ht htd
    have ht' : t ∈ faFrom [] (segments.map Prod.snd) :=
      (faFrom_mem _ _ t).mpr ⟨ht, by simp⟩
    exact faFrom_indexOf_le (segments.map Prod.snd) [] s t hmem' ht' (htie t ht' htd)

/-- Witness for C10: speakers `A` and `B` tie with 5 s each; the selector
returns `A`, the tied speaker appearing first. -/
theorem identify_interviewer_duration_tiebreak_witness :
    (2 ≤ (uniqueSpeakers [(⟨0,5⟩,"A"), (⟨5,10⟩,"B")]).length) ∧
    (∃ s, identify_interviewer [(⟨0,5⟩,"A"), (⟨5,10⟩,"B")] "duration" = .ok s ∧
      s ∈ [(⟨0,5⟩,"A"), ((⟨5,10⟩ : Segment),"B")].map Prod.snd ∧
      (∀ t ∈ [(⟨0,5⟩,"A"), ((⟨5,10⟩ : Segment),"B")].map Prod.snd,
        totalDur [(⟨0,5⟩,"A"), (⟨5,10⟩,"B")] s ≤ totalDur [(⟨0,5⟩,"A"), (⟨5,10⟩,"B")] t) ∧
      (∀ t ∈ [(⟨0,5⟩,"A"), ((⟨5,10⟩ : Segment),"B")].map Prod.snd,
        totalDur [(⟨0,5⟩,"A"), (⟨5,10⟩,"B")] t = totalDur [(⟨0,5⟩,"A"), (⟨5,10⟩,"B")] s →
        ([(⟨0,5⟩,"A"), ((⟨5,10⟩ : Segment),"B")].map Prod.snd).indexOf s
          ≤ ([(⟨0,5⟩,"A"), ((⟨5,10⟩ : Segment),"B")].map Prod.snd).indexOf t)) :=
  ⟨by decide, identify_interviewer_duration_tiebreak
    [(⟨0,5⟩,"A"), (⟨5,10⟩,"B")] (by decide)⟩

/-! ## C2: clamping of out-of-range timestamps -/

/-- C2 failing input: the claim (and the spec's failure-modes section) says
out-of-range timestamps are clamped and the operation never raises; but for a
4-sample buffer at 10 samples/s with fade 0.5 s and the deletion range
`(0.6, 0.7)` — whose start index 6 lies beyond the buffer and is *not*
clamped above — the fade-out write multiplies the 3-sample slice
`audio[1:6]` by a 5-value fade curve, a non-broadcastable shape mismatch, so
numpy raises `ValueError` (modelled as `none`). -/
theorem cut_segments_raises_on_out_of_range_start :
    cut_segments 10 [1, 1, 1, 1] [(3/5, 7/10)] (1/2) = none := by decide
